import Mathlib

set_option linter.unusedVariables false

/-!
Verification of the teditor asynchronous file-index and tree-view engine.

Shallow embedding of the engine in `src/search.rs`, `src/app.rs` and
`src/editor.rs`. Paths are lists of components; the filesystem below the
indexed root is a finite tree with a readability flag per directory; the
channels feeding the main loop are modelled by their drained contents.
-/

namespace Teditor

/-- A path relative to the indexed root, as its list of components
(`PathBuf` in the source). The empty list is the root itself. -/
abbrev Path := List String

/-- Codepoint sequence of a string. Rust compares `OsStr` byte-wise;
for UTF-8 the byte order agrees with the codepoint order used here. -/
def strKey (s : String) : List Nat := s.data.map Char.toNat

/-- String order used by `Ord` on path components (byte-wise). -/
def strLe (a b : String) : Prop := strKey a ≤ strKey b

instance : DecidableRel strLe := fun a b =>
  inferInstanceAs (Decidable (strKey a ≤ strKey b))

/-- Key of a path under the `PathBuf` ordering: the ordering on `PathBuf`
compares the sequences of components lexicographically, each component
byte-wise, a shorter sequence coming before its extensions. -/
def pathKey (p : Path) : List (List Nat) := p.map strKey

/-- Model of the `Ord` instance of `PathBuf` used by `files.sort()`. -/
def pathLe (a b : Path) : Prop := pathKey a ≤ pathKey b

instance : DecidableRel pathLe := fun a b =>
  inferInstanceAs (Decidable (pathKey a ≤ pathKey b))

instance : IsTotal Path pathLe := ⟨fun a b => le_total (pathKey a) (pathKey b)⟩

instance : IsTrans Path pathLe := ⟨fun _ _ _ h1 h2 => le_trans h1 h2⟩

/-- Rendering of a relative path as `Path::to_string_lossy` produces it:
components joined by the separator. -/
def pathString : Path → String
  | [] => ""
  | [c] => c
  | c :: rest => c ++ "/" ++ pathString rest

/-- Lowercase key of a component name: `str::to_lowercase` followed by the
byte-wise comparison, restricted to ASCII case folding (names outside
ASCII fold identically for every claim proved here). -/
def lowerKey (s : String) : List Nat :=
  s.data.map (fun c => if 65 ≤ c.toNat ∧ c.toNat ≤ 90 then c.toNat + 32 else c.toNat)

/-- Whether a file name begins with a dot (the hidden-file test of the
ignore crate). -/
def startsDot (s : String) : Bool :=
  match s.data with
  | [] => false
  | c :: _ => c.toNat = 46

/-- The filter a directory entry must pass in every walk the engine runs:
`hidden(!show_hidden)` skips dot names unless hidden files are shown, and
`filter_entry(|e| e.file_name() != ".git")` always skips the
version-control metadata directory. -/
def keepEntry (show_hidden : Bool) (name : String) : Bool :=
  (show_hidden || !startsDot name) && name ≠ ".git"

/-- The filesystem below the indexed root. A directory body is a chain of
entries; `readable` tells whether reading that directory succeeds.
Ignore-rule files (`.gitignore`, `.git/info/exclude`) are not modelled:
the embedding covers trees carrying no ignore rules, where the
`git_ignore`/`git_exclude` settings of the builder exclude nothing. -/
inductive FsT where
  | nilE : FsT
  | fileE (name : String) (rest : FsT) : FsT
  | dirE (name : String) (readable : Bool) (children : FsT) (rest : FsT) : FsT
deriving DecidableEq

/-- Model of the recursive `WalkBuilder` iteration: depth-first entries as
(relative path, is_dir) pairs. Filtered names are pruned with their whole
subtree; an unreadable directory still contributes its own entry, but its
read error is dropped by `.filter_map(|e| e.ok())`, so nothing below it
appears. -/
def walkEntries (show_hidden : Bool) : FsT → Path → List (Path × Bool)
  | .nilE, _ => []
  | .fileE n rest, p =>
    (if keepEntry show_hidden n then [(p ++ [n], false)] else []) ++
      walkEntries show_hidden rest p
  | .dirE n r ch rest, p =>
    (if keepEntry show_hidden n then
      (p ++ [n], true) :: (if r then walkEntries show_hidden ch (p ++ [n]) else [])
    else []) ++ walkEntries show_hidden rest p

/-- Model of `FileSearch::collect_files`. Iterator errors are discarded by
`.filter_map(|e| e.ok())`, so an unreadable root contributes nothing; the
root entry itself has an empty relative path and is skipped by `continue`;
only file entries are pushed; `files.sort()` sorts by the `PathBuf` order.
The `anyhow::Result` of the source signature is kept: no code path of the
function produces `Err`. -/
def collect_files (root_readable : Bool) (root_fs : FsT) (show_hidden : Bool) :
    Except String (List Path) :=
  let walked := if root_readable then walkEntries show_hidden root_fs [] else []
  let files := (walked.filter (fun e => !e.2)).map (fun e => e.1)
  Except.ok (List.insertionSort pathLe files)

/-- Lookup of a directory entry by name inside one directory body (file
entries are passed over: listing a file path with `min_depth(1)` yields no
entries, the same as a missing directory). -/
def lookupDir : FsT → String → Option (Bool × FsT)
  | .nilE, _ => none
  | .fileE _ rest, n => lookupDir rest n
  | .dirE m r ch rest, n => if m = n then some (r, ch) else lookupDir rest n

/-- The directory reached from the root by following `path`
(`self.root.join(path)`), together with its readability. -/
def dirAt (world : Bool × FsT) : Path → Option (Bool × FsT)
  | [] => some world
  | n :: rest =>
    match lookupDir world.2 n with
    | some d => dirAt d rest
    | none => none

/-- Model of the depth-1 walk (`min_depth(1).max_depth(1)`) over one
directory body, with the same entry filters; yields (name, is_dir). The
readability of a child directory is not consulted: listing does not read
the child. -/
def listChildren (show_hidden : Bool) : FsT → List (String × Bool)
  | .nilE => []
  | .fileE n rest =>
    (if keepEntry show_hidden n then [(n, false)] else []) ++ listChildren show_hidden rest
  | .dirE n _ _ rest =>
    (if keepEntry show_hidden n then [(n, true)] else []) ++ listChildren show_hidden rest

/-- The depth-1 listing `reload_children` observes at `path`: empty when
the directory is missing or unreadable (every walk item is then an error
dropped by `.filter_map(|e| e.ok())`). -/
def readListing (world : Bool × FsT) (show_hidden : Bool) (path : Path) :
    List (String × Bool) :=
  match dirAt world path with
  | some (true, ch) => listChildren show_hidden ch
  | _ => []

/-- Model of `TreeNode` in `src/search.rs`. -/
structure TreeNode where
  is_dir : Bool
  children : List Path
  children_loaded : Bool
deriving DecidableEq

/-- Model of `Entry` in `src/search.rs`. -/
structure Entry where
  path : Path
  is_dir : Bool
  depth : Nat
deriving DecidableEq

/-- Lookup in the `tree_nodes` map (`HashMap::get`), the map being carried
as an association list. -/
def lookupNode : List (Path × TreeNode) → Path → Option TreeNode
  | [], _ => none
  | e :: rest, p => if e.1 = p then some e.2 else lookupNode rest p

/-- Model of `HashMap::entry(k).or_insert(v)`: insert only when absent. -/
def insertAbsent (ns : List (Path × TreeNode)) (p : Path) (v : TreeNode) :
    List (Path × TreeNode) :=
  match lookupNode ns p with
  | some _ => ns
  | none => ns ++ [(p, v)]

/-- Model of the in-place mutation through `HashMap::get_mut`. -/
def updateNode (ns : List (Path × TreeNode)) (p : Path) (f : TreeNode → TreeNode) :
    List (Path × TreeNode) :=
  ns.map (fun e => if e.1 = p then (e.1, f e.2) else e)

/-- Model of `FileSearch` in `src/search.rs`. The `matcher` field holds an
external nucleo `Matcher`; it is modelled as the abstract scoring function
passed to `update_query`. -/
structure FileSearch where
  root : Path
  files : List Path
  expanded : List Path
  -- the source field is named `matches`, a reserved word here
  match_list : List (Nat × Nat)
  search_active : Bool
  show_hidden : Bool
  indexing : Bool
  tree_nodes : List (Path × TreeNode)
  tree_visible : List Entry
deriving DecidableEq

/-- Order on the child tuples (prefix, lowercased name, path, is_dir) used
by `children.sort_by(|a, b| a.0.cmp(&b.0).then_with(|| a.1.cmp(&b.1)))`:
directories (prefix 0) before files (prefix 1), then case-insensitively by
name. -/
def childLe (a b : Nat × List Nat × Path × Bool) : Prop :=
  a.1 < b.1 ∨ (a.1 = b.1 ∧ a.2.1 ≤ b.2.1)

instance : DecidableRel childLe := fun a b =>
  inferInstanceAs (Decidable (a.1 < b.1 ∨ (a.1 = b.1 ∧ a.2.1 ≤ b.2.1)))

/-- The child tuples `(dir-first prefix, lowercased name, relative path,
is_dir)` one reload builds, sorted by
`|a, b| a.0.cmp(&b.0).then_with(|| a.1.cmp(&b.1))`. -/
def reloadChildren (world : Bool × FsT) (sh : Bool) (path : Path) :
    List (Nat × List Nat × Path × Bool) :=
  List.insertionSort childLe ((readListing world sh path).map
    (fun c => (if c.2 then 0 else 1, lowerKey c.1, path ++ [c.1], c.2)))

/-- The sorted child paths one reload stores in the parent node. -/
def reloadChildPaths (world : Bool × FsT) (sh : Bool) (path : Path) : List Path :=
  (reloadChildren world sh path).map (fun c => c.2.2.1)

/-- Model of `FileSearch::reload_children`: one depth-1 walk at
`root.join(path)`; each listed child yields a sort tuple (collected in
`reloadChildren`) and a fresh `TreeNode` inserted only when absent (files
counting as already loaded); finally the node at `path` is overwritten
with the sorted child paths, `is_dir` set, and marked loaded. The source
returns `Result<()>` but only ever `Ok(())`. -/
def FileSearch.reload_children (world : Bool × FsT) (s : FileSearch) (path : Path) :
    FileSearch :=
  let raw := readListing world s.show_hidden path
  let nodes1 := raw.foldl
    (fun ns c => insertAbsent ns (path ++ [c.1]) ⟨c.2, [], !c.2⟩) s.tree_nodes
  let nodes2 := insertAbsent nodes1 path ⟨true, [], false⟩
  let nodes3 := updateNode nodes2 path
    (fun _ => ⟨true, reloadChildPaths world s.show_hidden path, true⟩)
  { s with tree_nodes := nodes3 }

/-- Model of `FileSearch::load_children`: reload only when the node is
absent or not yet loaded. -/
def FileSearch.load_children (world : Bool × FsT) (s : FileSearch) (path : Path) :
    FileSearch :=
  let needs_load :=
    match lookupNode s.tree_nodes path with
    | some node => !node.children_loaded
    | none => true
  if needs_load then s.reload_children world path else s

/-- Model of `FileSearch::walk_tree`. The source recurses through the
`tree_nodes` map, which is not structurally decreasing, so the embedding
takes explicit fuel; the claims are proved for every fuel value. The
source pushes entries onto `self.tree_visible`; the embedding returns the
pushed sequence. -/
def FileSearch.walk_tree (s : FileSearch) : Nat → Path → Nat → List Entry
  | 0, _, _ => []
  | fuel + 1, path, depth =>
    match lookupNode s.tree_nodes path with
    | none => []
    | some node =>
      ⟨path, node.is_dir, depth⟩ ::
        (if node.is_dir && s.expanded.contains path then
          node.children.flatMap (fun c => s.walk_tree fuel c (depth + 1))
        else [])

/-- Variant of `walk_tree` that descends only into directories that are
both expanded and have `children_loaded` set, following the wording of the
spec; C4 compares it with the source definition above. -/
def FileSearch.walk_tree_loaded (s : FileSearch) : Nat → Path → Nat → List Entry
  | 0, _, _ => []
  | fuel + 1, path, depth =>
    match lookupNode s.tree_nodes path with
    | none => []
    | some node =>
      ⟨path, node.is_dir, depth⟩ ::
        (if node.is_dir && s.expanded.contains path && node.children_loaded then
          node.children.flatMap (fun c => s.walk_tree_loaded fuel c (depth + 1))
        else [])

/-- Model of `FileSearch::rebuild_tree_visible`: the flattened visible
sequence is the concatenation of the walks of the root children. -/
def FileSearch.rebuild_tree_visible (s : FileSearch) (fuel : Nat) : FileSearch :=
  match lookupNode s.tree_nodes [] with
  | none => { s with tree_visible := [] }
  | some root_node =>
    { s with tree_visible := root_node.children.flatMap (fun c => s.walk_tree fuel c 0) }

/-- The identity match list `(i, 0)` over all files, produced for an empty
query and by `apply_index`/`refresh`. -/
def enumZero (files : List Path) : List (Nat × Nat) :=
  files.enum.map (fun ia => (ia.1, 0))

/-- Non-increasing-score order on `(index, score)` pairs: the comparator
`|a, b| b.1.cmp(&a.1)` of `update_query`. -/
def scoreGe (a b : Nat × Nat) : Prop := b.2 ≤ a.2

instance : DecidableRel scoreGe := fun _ b => Nat.decLe b.2 _

instance : IsTotal (Nat × Nat) scoreGe := ⟨fun a b => le_total b.2 a.2⟩

instance : IsTrans (Nat × Nat) scoreGe := ⟨fun _ _ _ h1 h2 => le_trans h2 h1⟩

/-- Model of `FileSearch::update_query`. The nucleo scorer
`Matcher::fuzzy_match` is external code, taken as an abstract function
from haystack and needle to an optional score. -/
def FileSearch.update_query (matcher : String → String → Option Nat)
    (s : FileSearch) (query : String) : FileSearch :=
  let search_active := !(query = "")
  if query = "" then
    { s with search_active := search_active, match_list := enumZero s.files }
  else
    let scored := s.files.enum.filterMap
      (fun ip => (matcher (pathString ip.2) query).map (fun sc => (ip.1, sc)))
    { s with search_active := search_active,
             match_list := List.insertionSort scoreGe scored }

/-- Model of `FileSearch::apply_index`. -/
def FileSearch.apply_index (s : FileSearch) (files : List Path) : FileSearch :=
  { s with files := files, match_list := enumZero files, indexing := false }

/-- Model of `FileSearch::visible_entry_at`. -/
def FileSearch.visible_entry_at (s : FileSearch) (index : Nat) : Option Entry :=
  s.tree_visible.get? index

/-- Model of `FileSearch::get_visible_entry`. -/
def FileSearch.get_visible_entry (s : FileSearch) (index : Nat) : Option Entry :=
  s.visible_entry_at index

/-- Model of `FileSearch::match_count`. -/
def FileSearch.match_count (s : FileSearch) : Nat :=
  if s.search_active then s.match_list.length else s.tree_visible.length

/-- Model of `FileSearch::match_path_at`. -/
def FileSearch.match_path_at (s : FileSearch) (index : Nat) : Option (Path × Nat) :=
  (s.match_list.get? index).bind
    (fun is => (s.files.get? is.1).map (fun p => (p, is.2)))

/-- Model of `FileSearch::get_match`. In search mode the source indexes
`self.files[*idx]` unconditionally; the running program keeps every match
index in range, which `getD` models on the in-range cases. `root.join`
of a relative path is concatenation. -/
def FileSearch.get_match (s : FileSearch) (index : Nat) : Option Path :=
  if s.search_active then
    (s.match_list.get? index).map (fun is => s.root ++ s.files.getD is.1 [])
  else
    ((s.get_visible_entry index).filter (fun e => !e.is_dir)).map
      (fun e => s.root ++ e.path)

/-- Model of the editor buffer (`src/editor.rs`). The syntax-highlighting
cache (`syntax_set`, `theme`, `highlighted_lines`, `content_hash`) is
display-only state and is omitted. -/
structure Editor where
  path : Path
  lines : List String
  cursor : Nat × Nat
  modified : Bool
  original_content : String
deriving DecidableEq

/-- Model of `str::lines` as used on the file content: split on a newline,
with a trailing newline producing no extra empty line. -/
def rustLines (s : String) : List String :=
  let parts := s.splitOn "\n"
  if parts.getLast? = some "" then parts.dropLast else parts

/-- Model of `Editor::is_modified`. -/
def Editor.is_modified (ed : Editor) : Bool := ed.modified

/-- Model of `Editor::reload`. The `fs::read_to_string` result is passed
in as `disk` (`none` models a read error). The cursor is restored clamped
to the new buffer, as the replayed Down/Right key events of the source
produce. -/
def Editor.reload (disk : Option String) (ed : Editor) : Except String Editor :=
  match disk with
  | none => Except.error "read error"
  | some content =>
    let ls := rustLines content
    let row := min ed.cursor.1 (ls.length - 1)
    let col := min ed.cursor.2 (((ls.get? row).map String.length).getD 0)
    Except.ok { ed with lines := ls, cursor := (row, col),
                        original_content := content, modified := false }

/-- The outcome of one `try_recv` poll of the background-index completion
channel. -/
inductive RecvOutcome where
  | okFiles (files : List Path)
  | errMsg (msg : String)
  | empty
  | disconnected
deriving DecidableEq

/-- Model of the `App` state touched by the claims (`src/app.rs`). The
channels appear as follows: `index_rx` records whether the completion
receiver is still held; the per-file watcher signals drained in a tick are
passed to `check_file_changes` directly. -/
structure App where
  search : FileSearch
  editor : Option Editor
  search_input : String
  selected_index : Nat
  status_message : Option String
  file_changed_externally : Bool
  index_rx : Bool
deriving DecidableEq

/-- Model of `App::check_file_changes`. `signals` is what draining
`watcher_rx` produced this tick (empty when no watcher is attached);
`disk` is the current on-disk content of the open file. -/
def App.check_file_changes (signals : List Unit) (disk : Option String) (a : App) :
    App :=
  match a.editor with
  | none => a
  | some ed =>
    let changed := !signals.isEmpty
    if !changed then a
    else if ed.is_modified then
      { a with file_changed_externally := true,
               status_message := some "External change detected (unsaved edits)" }
    else
      match ed.reload disk with
      | Except.ok ed2 =>
        { a with editor := some ed2, file_changed_externally := false,
                 status_message := some "File reloaded (external change)" }
      | Except.error e =>
        { a with status_message := some ("Reload failed: " ++ e) }

/-- Model of `App::check_indexing`. `recv` is what `try_recv` returns when
the receiver is still held; the returned flag is the `bool` of the source
(whether a redraw is needed). -/
def App.check_indexing (matcher : String → String → Option Nat)
    (recv : RecvOutcome) (a : App) : App × Bool :=
  if !a.index_rx then (a, false)
  else
    match recv with
    | RecvOutcome.okFiles files =>
      let s := (a.search.apply_index files).update_query matcher a.search_input
      let mx := s.match_count - 1
      let sel := if a.selected_index > mx then mx else a.selected_index
      let status := if a.status_message = some "Indexing..." then none else a.status_message
      ({ a with search := s, selected_index := sel, status_message := status,
                index_rx := false }, true)
    | RecvOutcome.errMsg e =>
      ({ a with search := { a.search with indexing := false },
                status_message := some ("Indexing failed: " ++ e),
                index_rx := false }, true)
    | RecvOutcome.empty => (a, false)
    | RecvOutcome.disconnected =>
      ({ a with search := { a.search with indexing := false },
                status_message := some "Indexing failed: worker disconnected",
                index_rx := false }, true)

/-- The debounce interval `refresh_interval` of `App::run`, in ms. -/
def refresh_interval : Nat := 300

/-- The scheduler state of `App::run` relevant to the debounce policy,
plus a history counter of `refresh_search` calls. -/
structure SchedState where
  root_refresh_pending : Bool
  last_root_refresh : Nat
  refresh_count : Nat
deriving DecidableEq

/-- What one tick-rate iteration of the `App::run` loop observes: the
current time, whether `check_root_changes` drained any root-watcher
signal, and the value of `self.search.indexing` at the refresh decision
(after `check_indexing` ran). -/
structure TickObs where
  now : Nat
  root_signal : Bool
  indexing : Bool
deriving DecidableEq

/-- Model of the structural-refresh decision of one iteration of
`App::run`: a drained root signal sets the pending flag; a refresh runs
only when the flag is set, indexing is not in progress and the debounce
interval has elapsed; it then clears the flag and resets the timer. -/
def schedTick (s : SchedState) (t : TickObs) : SchedState :=
  let pending := s.root_refresh_pending || t.root_signal
  if pending && !t.indexing && refresh_interval ≤ t.now - s.last_root_refresh then
    { root_refresh_pending := false, last_root_refresh := t.now,
      refresh_count := s.refresh_count + 1 }
  else
    { s with root_refresh_pending := pending }

/-- A run of consecutive tick iterations. -/
def schedRun (s : SchedState) (ts : List TickObs) : SchedState :=
  ts.foldl schedTick s

/-- Concrete editor fixture used by witnesses. -/
def witEd : Editor :=
  { path := ["r", "f.txt"], lines := ["old edit"], cursor := (0, 0),
    modified := true, original_content := "old" }

/-- Concrete app fixture used by witnesses. -/
def witApp : App :=
  { search :=
      { root := ["r"], files := [], expanded := [[]], match_list := [],
        search_active := false, show_hidden := true, indexing := false,
        tree_nodes := [], tree_visible := [] },
    editor := some witEd, search_input := "", selected_index := 0,
    status_message := none, file_changed_externally := false,
    index_rx := false }

/-- Concrete browse-mode search state used by witnesses: one expanded
directory `d` holding one file `f.txt`. -/
def witBrowse : FileSearch :=
  { root := ["r"], files := [["d", "f.txt"]], expanded := [[], ["d"]],
    match_list := [], search_active := false, show_hidden := true,
    indexing := false,
    tree_nodes :=
      [([], ⟨true, [["d"]], true⟩),
       (["d"], ⟨true, [["d", "f.txt"]], true⟩),
       (["d", "f.txt"], ⟨false, [], true⟩)],
    tree_visible :=
      [⟨["d"], true, 0⟩, ⟨["d", "f.txt"], false, 1⟩] }

/-- Proper ancestor: a strict leading segment of the component list (the
root `[]` is a proper ancestor of every nonempty path). -/
def properAncestor (q p : Path) : Prop := q ≠ p ∧ ∃ r, q ++ r = p

/-- Well-formedness of the node map: every recorded child path extends
its owner by exactly one component. The engine maintains this because
children lists are only written by `reload_children`, which stores
`path ++ [name]` (see `reloadChildPaths_mem`). -/
def childrenWellFormed (ns : List (Path × TreeNode)) : Prop :=
  ∀ e ∈ ns, ∀ c ∈ (e : Path × TreeNode).2.children, c ≠ [] ∧ c.dropLast = e.1

/-- The TreeNode data-model invariant of the spec: a node that is not yet
loaded has an empty children list. The engine maintains this because
fresh directory nodes are created with empty children and marked loaded
exactly when children are stored. -/
def unloadedEmpty (ns : List (Path × TreeNode)) : Prop :=
  ∀ e ∈ ns, (e : Path × TreeNode).2.children_loaded = false → e.2.children = []

instance (ns : List (Path × TreeNode)) : Decidable (childrenWellFormed ns) :=
  inferInstanceAs (Decidable (∀ e ∈ ns, ∀ c ∈ (e : Path × TreeNode).2.children,
    c ≠ [] ∧ c.dropLast = e.1))

instance (ns : List (Path × TreeNode)) : Decidable (unloadedEmpty ns) :=
  inferInstanceAs (Decidable (∀ e ∈ ns,
    (e : Path × TreeNode).2.children_loaded = false → e.2.children = []))

/-- Concrete scan counterexample root: a directory `a` holding file `c`,
next to a file `a-b`. -/
def exRoot5 : FsT :=
  FsT.dirE "a" true (FsT.fileE "c" FsT.nilE) (FsT.fileE "a-b" FsT.nilE)

/-- Concrete search fixture for the fuzzy-ranking witness. -/
def witSearch : FileSearch :=
  { root := ["r"], files := [["a"], ["b"], ["c"]], expanded := [[]],
    match_list := [], search_active := false, show_hidden := true,
    indexing := false, tree_nodes := [], tree_visible := [] }

/-- Concrete scoring function for the fuzzy-ranking witness. -/
def witMatcher : String → String → Option Nat :=
  fun h _ => if h = "a" then some 1 else if h = "c" then some 5 else none

/-! ## Theorems -/

/-- Helper: closed form of `get_match` in browse mode. -/
theorem get_match_browse (s : FileSearch) (i : Nat) (hb : s.search_active = false) :
    s.get_match i =
      (match s.tree_visible.get? i with
      | some e => if e.is_dir = false then some (s.root ++ e.path) else none
      | none => none) := by
  unfold FileSearch.get_match FileSearch.get_visible_entry FileSearch.visible_entry_at
  rw [hb]
  cases h : s.tree_visible.get? i with
  | none => rfl
  | some e => cases hd : e.is_dir <;> simp [Option.filter, hd]

/-- C1: whenever a per-file watcher signal has arrived and the open editor
reports unsaved modifications, `check_file_changes` leaves the buffer
content unchanged and sets the `file_changed_externally` conflict flag;
when there are no unsaved modifications and the file is readable, the
buffer is reloaded from disk. -/
theorem C1_conflict_safety (a : App) (ed : Editor) (signals : List Unit)
    (disk : Option String)
    (hed : a.editor = some ed) (hsig : signals ≠ []) :
    (ed.is_modified = true →
      (a.check_file_changes signals disk).editor = some ed ∧
      (a.check_file_changes signals disk).file_changed_externally = true) ∧
    (ed.is_modified = false → ∀ content, disk = some content →
      ∃ ed2, (a.check_file_changes signals disk).editor = some ed2 ∧
        ed2.lines = rustLines content ∧ ed2.modified = false) := by
  have hne : signals.isEmpty = false := by
    cases signals with
    | nil => exact absurd rfl hsig
    | cons x xs => rfl
  constructor
  · intro hmod
    simp [App.check_file_changes, hed, hne, hmod]
  · intro hmod content hdisk
    subst hdisk
    simp [App.check_file_changes, hed, hne, hmod, Editor.reload]

/-- C1 witness: a concrete modified editor with one pending signal keeps
its buffer and raises the conflict flag. -/
theorem C1_witness :
    (witEd.is_modified = true →
      (witApp.check_file_changes [()] (some "new")).editor = some witEd ∧
      (witApp.check_file_changes [()] (some "new")).file_changed_externally = true) ∧
    (witEd.is_modified = false → ∀ content, (some "new" : Option String) = some content →
      ∃ ed2, (witApp.check_file_changes [()] (some "new")).editor = some ed2 ∧
        ed2.lines = rustLines content ∧ ed2.modified = false) :=
  C1_conflict_safety witApp witEd [()] (some "new") rfl (by decide)

/-- C10: in browse mode `get_match` returns `some` exactly for an
in-range, non-directory visible entry, and then yields the root joined
with the entry path; a directory entry or an out-of-range index yields
`none`. -/
theorem C10_browse_get_match (s : FileSearch) (i : Nat)
    (hb : s.search_active = false) :
    (∀ p, s.get_match i = some p ↔
      ∃ e, s.tree_visible.get? i = some e ∧ e.is_dir = false ∧ p = s.root ++ e.path) ∧
    (∀ e, s.tree_visible.get? i = some e → e.is_dir = true → s.get_match i = none) ∧
    (s.tree_visible.get? i = none → s.get_match i = none) := by
  have hm := get_match_browse s i hb
  refine ⟨fun p => ?_, fun e he hdir => ?_, fun hnone => ?_⟩
  · rw [hm]
    cases h : s.tree_visible.get? i with
    | none => simp
    | some e =>
      cases hd : e.is_dir with
      | false =>
        constructor
        · intro hp
          have hp2 : some (s.root ++ e.path) = some p := by simpa [hd] using hp
          exact ⟨e, rfl, hd, (Option.some.inj hp2).symm⟩
        · rintro ⟨e2, he2, hd2, rfl⟩
          cases Option.some.inj he2
          simp [hd]
      | true =>
        constructor
        · intro hp
          simp [hd] at hp
        · rintro ⟨e2, he2, hd2, rfl⟩
          cases Option.some.inj he2
          simp [hd] at hd2
  · rw [hm, he]
    simp [hdir]
  · rw [hm, hnone]

/-- C10 witness: on a concrete browse-mode state, the file row is opened
with its full path. -/
theorem C10_witness :
    (witBrowse.get_match 1 = some ["r", "d", "f.txt"] ↔
      ∃ e, witBrowse.tree_visible.get? 1 = some e ∧ e.is_dir = false ∧
        (["r", "d", "f.txt"] : Path) = witBrowse.root ++ e.path) ∧
    witBrowse.search_active = false :=
  ⟨(C10_browse_get_match witBrowse 1 rfl).1 ["r", "d", "f.txt"], rfl⟩

/-- C2 counterexample: an unreadable root does not surface a hard error:
`collect_files` returns `Ok` with an empty list, because every iterator
error is dropped by `.filter_map(|e| e.ok())` and no other code path of
the function produces `Err`. -/
theorem C2_counterexample :
    collect_files false (FsT.fileE "a" FsT.nilE) true = Except.ok [] ∧
    ∀ msg, collect_files false (FsT.fileE "a" FsT.nilE) true ≠ Except.error msg :=
  ⟨rfl, fun msg h => Except.noConfusion h⟩

/-- C2 amended: `collect_files` never returns `Err`; an unreadable
directory — the root included — is silently skipped, its contents never
influencing the result, and an unreadable root yields the empty index. -/
theorem C2_unreadable_handling :
    (∀ rr fs sh, ∃ l, collect_files rr fs sh = Except.ok l) ∧
    (∀ sh n ch1 ch2 rest p,
      walkEntries sh (FsT.dirE n false ch1 rest) p =
        walkEntries sh (FsT.dirE n false ch2 rest) p) ∧
    (∀ fs sh, collect_files false fs sh = Except.ok []) :=
  ⟨fun rr fs sh => ⟨_, rfl⟩, fun sh n ch1 ch2 rest p => rfl, fun fs sh => rfl⟩

/-- C5 counterexample: `files.sort()` orders by the `PathBuf` order
(component sequence), not by the rendered relative-path string: with the
files `a-b` and `a/c`, the scan returns `a/c` first, while the string
order puts `a-b` first (`-` sorts before `/`). -/
theorem C5_counterexample :
    collect_files true exRoot5 true = Except.ok [["a", "c"], ["a-b"]] ∧
    ¬ List.Sorted (fun a b : Path => strLe (pathString a) (pathString b))
        [["a", "c"], ["a-b"]] :=
  ⟨rfl, by decide⟩

/-- C5 amended: the list returned by the full scan is sorted ascending by
the `PathBuf` order: lexicographic on the sequence of components. -/
theorem C5_sorted_componentwise (rr : Bool) (fs : FsT) (sh : Bool)
    (l : List Path) (h : collect_files rr fs sh = Except.ok l) :
    List.Sorted pathLe l := by
  have h2 : List.insertionSort pathLe
      (((if rr then walkEntries sh fs [] else []).filter
        (fun e => !e.2)).map (fun e => e.1)) = l := Except.ok.inj h
  rw [← h2]
  exact List.sorted_insertionSort pathLe _

/-- C5 witness for the amended statement, at the counterexample root. -/
theorem C5_witness :
    collect_files true exRoot5 true = Except.ok [["a", "c"], ["a-b"]] ∧
    List.Sorted pathLe [["a", "c"], ["a-b"]] :=
  ⟨rfl, C5_sorted_componentwise true exRoot5 true _ rfl⟩

/-- Helper: every entry the recursive walk emits extends the base path by
a nonempty run of components that all pass the entry filter. -/
theorem walkEntries_mem (sh : Bool) (fs : FsT) :
    ∀ p q b, (q, b) ∈ walkEntries sh fs p →
      ∃ suf, q = p ++ suf ∧ suf ≠ [] ∧ ∀ c ∈ suf, keepEntry sh c = true := by
  induction fs with
  | nilE => intro p q b h; simp [walkEntries] at h
  | fileE n rest ih =>
    intro p q b h
    simp only [walkEntries, List.mem_append] at h
    rcases h with h | h
    · by_cases hk : keepEntry sh n = true
      · rw [if_pos hk] at h
        have heq := List.mem_singleton.1 h
        have hq : q = p ++ [n] := congrArg Prod.fst heq
        exact ⟨[n], hq, List.cons_ne_nil n [],
          fun c hc => (List.mem_singleton.1 hc) ▸ hk⟩
      · rw [if_neg hk] at h
        simp at h
    · exact ih p q b h
  | dirE n r ch rest ihch ihrest =>
    intro p q b h
    simp only [walkEntries, List.mem_append] at h
    rcases h with h | h
    · by_cases hk : keepEntry sh n = true
      · rw [if_pos hk] at h
        rcases List.mem_cons.1 h with h | h
        · have hq : q = p ++ [n] := congrArg Prod.fst h
          exact ⟨[n], hq, List.cons_ne_nil n [],
            fun c hc => (List.mem_singleton.1 hc) ▸ hk⟩
        · cases r with
          | false => simp at h
          | true =>
            rw [if_pos rfl] at h
            rcases ihch (p ++ [n]) q b h with ⟨suf, hq, hne, hall⟩
            refine ⟨n :: suf, by simpa using hq, List.cons_ne_nil n suf, ?_⟩
            intro c hc
            rcases List.mem_cons.1 hc with rfl | hc
            · exact hk
            · exact hall c hc
      · rw [if_neg hk] at h
        simp at h
    · exact ihrest p q b h

/-- Helper: a kept entry never has a dot name when hidden files are off. -/
theorem keepEntry_dot {sh : Bool} {c : String} (h : keepEntry sh c = true) :
    sh = false → startsDot c = false := by
  intro hsh
  subst hsh
  unfold keepEntry at h
  simp only [Bool.and_eq_true, Bool.false_or, Bool.not_eq_eq_eq_not, Bool.not_true] at h
  exact h.1

/-- Helper: a kept entry is never the version-control directory. -/
theorem keepEntry_git {sh : Bool} {c : String} (h : keepEntry sh c = true) :
    c ≠ ".git" := by
  unfold keepEntry at h
  simp only [Bool.and_eq_true, decide_eq_true_eq, ne_eq] at h
  exact h.2

/-- Helper: every name listed by the depth-1 walk passes the filter. -/
theorem listChildren_mem (sh : Bool) (body : FsT) :
    ∀ n d, (n, d) ∈ listChildren sh body → keepEntry sh n = true := by
  induction body with
  | nilE => intro n d h; simp [listChildren] at h
  | fileE m rest ih =>
    intro n d h
    simp only [listChildren, List.mem_append] at h
    rcases h with h | h
    · by_cases hk : keepEntry sh m = true
      · rw [if_pos hk] at h
        have heq := List.mem_singleton.1 h
        have : n = m := congrArg Prod.fst heq
        exact this ▸ hk
      · rw [if_neg hk] at h
        simp at h
    · exact ih n d h
  | dirE m r ch rest ihch ihrest =>
    intro n d h
    simp only [listChildren, List.mem_append] at h
    rcases h with h | h
    · by_cases hk : keepEntry sh m = true
      · rw [if_pos hk] at h
        have heq := List.mem_singleton.1 h
        have : n = m := congrArg Prod.fst heq
        exact this ▸ hk
      · rw [if_neg hk] at h
        simp at h
    · exact ihrest n d h

/-- Helper: every name in the listing `reload_children` observes passes
the filter. -/
theorem readListing_mem (world : Bool × FsT) (sh : Bool) (path : Path)
    (n : String) (d : Bool) (h : (n, d) ∈ readListing world sh path) :
    keepEntry sh n = true := by
  unfold readListing at h
  rcases hd : dirAt world path with - | ⟨r, ch⟩
  · rw [hd] at h; simp at h
  · rw [hd] at h
    cases r with
    | false => simp at h
    | true => exact listChildren_mem sh ch n d h

/-- Helper: looking up the key just updated returns the mapped node. -/
theorem lookup_updateNode_self (ns : List (Path × TreeNode)) (p : Path)
    (f : TreeNode → TreeNode) :
    lookupNode (updateNode ns p f) p = (lookupNode ns p).map f := by
  induction ns with
  | nil => rfl
  | cons e rest ih =>
    by_cases he : e.1 = p
    · simp [updateNode, lookupNode, he]
    · simp only [updateNode, List.map_cons, if_neg he]
      simp only [lookupNode, if_neg he]
      exact ih

/-- Helper: appending a binding at the end is found when no earlier
binding exists. -/
theorem lookup_append_self (ns : List (Path × TreeNode)) (p : Path) (v : TreeNode)
    (h : lookupNode ns p = none) :
    lookupNode (ns ++ [(p, v)]) p = some v := by
  induction ns with
  | nil => simp [lookupNode]
  | cons e rest ih =>
    simp only [lookupNode] at h
    simp only [List.cons_append, lookupNode]
    by_cases he : e.1 = p
    · rw [if_pos he] at h
      exact absurd h (by simp)
    · rw [if_neg he] at h
      rw [if_neg he]
      exact ih h

/-- Helper: after `or_insert`, the key is present. -/
theorem lookup_insertAbsent_self (ns : List (Path × TreeNode)) (p : Path) (v : TreeNode) :
    lookupNode (insertAbsent ns p v) p = some ((lookupNode ns p).getD v) := by
  unfold insertAbsent
  cases h : lookupNode ns p with
  | some w => simp [h]
  | none => simp [lookup_append_self ns p v h]

/-- Helper: after a reload, the node at the reloaded path holds the
sorted child paths and is marked loaded. -/
theorem reload_children_lookup (world : Bool × FsT) (s : FileSearch) (path : Path) :
    lookupNode (s.reload_children world path).tree_nodes path
      = some ⟨true, reloadChildPaths world s.show_hidden path, true⟩ := by
  simp only [FileSearch.reload_children]
  rw [lookup_updateNode_self, lookup_insertAbsent_self]
  rfl

/-- Helper: every stored child path extends the reloaded path by one
listed name. -/
theorem reloadChildPaths_mem (world : Bool × FsT) (sh : Bool) (path : Path)
    (c : Path) (h : c ∈ reloadChildPaths world sh path) :
    ∃ n d, (n, d) ∈ readListing world sh path ∧ c = path ++ [n] := by
  unfold reloadChildPaths at h
  rcases List.mem_map.1 h with ⟨t, ht, rfl⟩
  unfold reloadChildren at ht
  have ht2 := (List.mem_insertionSort childLe).1 ht
  rcases List.mem_map.1 ht2 with ⟨rc, hrc, rfl⟩
  exact ⟨rc.1, rc.2, by simpa using hrc, rfl⟩

/-- C6: every path produced by the full scan has no dot component when
hidden files are off and never a `.git` component; every child path
stored by the single-level reload likewise extends its parent by a name
that is no dot name when hidden files are off and is never `.git`. -/
theorem C6_hidden_and_git_filters (rr : Bool) (fs : FsT) (sh : Bool) (l : List Path)
    (h : collect_files rr fs sh = Except.ok l) :
    (∀ p ∈ l, (sh = false → ∀ c ∈ p, startsDot c = false) ∧ (∀ c ∈ p, c ≠ ".git")) ∧
    (∀ world s path nd,
      lookupNode ((FileSearch.reload_children world s path).tree_nodes) path = some nd →
      ∀ c ∈ nd.children, ∃ n, c = path ++ [n] ∧
        (s.show_hidden = false → startsDot n = false) ∧ n ≠ ".git") := by
  have h2 : List.insertionSort pathLe
      (((if rr then walkEntries sh fs [] else []).filter
        (fun e => !e.2)).map (fun e => e.1)) = l := Except.ok.inj h
  constructor
  · intro p hp
    rw [← h2] at hp
    have hp2 := (List.mem_insertionSort pathLe).1 hp
    rcases List.mem_map.1 hp2 with ⟨e, he, rfl⟩
    have he2 := (List.mem_filter.1 he).1
    cases rr with
    | false => simp at he2
    | true =>
      rw [if_pos rfl] at he2
      rcases walkEntries_mem sh fs [] e.1 e.2 (by simpa using he2) with
        ⟨suf, hq, hne, hall⟩
      have hq2 : e.1 = suf := by simpa using hq
      constructor
      · intro hsh c hc
        exact keepEntry_dot (hall c (hq2 ▸ hc)) hsh
      · intro c hc
        exact keepEntry_git (hall c (hq2 ▸ hc))
  · intro world s path nd hnd c hc
    rw [reload_children_lookup] at hnd
    cases Option.some.inj hnd
    rcases reloadChildPaths_mem world s.show_hidden path c (by simpa using hc) with
      ⟨n, d, hmem, rfl⟩
    have hk := readListing_mem world s.show_hidden path n d hmem
    exact ⟨n, rfl, fun hsh => keepEntry_dot hk hsh, keepEntry_git hk⟩

/-- C6 witness: a tree holding `.git/x` and `a/{.h, c}` scanned with
hidden files off yields exactly `a/c`, and the conclusions hold there. -/
theorem C6_witness :
    collect_files true
      (FsT.dirE ".git" true (FsT.fileE "x" FsT.nilE)
        (FsT.dirE "a" true (FsT.fileE ".h" (FsT.fileE "c" FsT.nilE)) FsT.nilE))
      false = Except.ok [["a", "c"]] ∧
    (∀ c ∈ (["a", "c"] : Path), c ≠ ".git") :=
  ⟨rfl, fun c hc =>
    (((C6_hidden_and_git_filters true
      (FsT.dirE ".git" true (FsT.fileE "x" FsT.nilE)
        (FsT.dirE "a" true (FsT.fileE ".h" (FsT.fileE "c" FsT.nilE)) FsT.nilE))
      false [["a", "c"]] rfl).1 ["a", "c"] (by decide)).2) c hc⟩

/-- Helper: `load_children` is a no-op on a node already loaded. -/
theorem load_children_of_loaded (world : Bool × FsT) (s : FileSearch) (p : Path)
    (nd : TreeNode) (h : lookupNode s.tree_nodes p = some nd)
    (hcl : nd.children_loaded = true) :
    s.load_children world p = s := by
  simp [FileSearch.load_children, h, hcl]

/-- C7: calling `load_children` twice with no intervening filesystem
change yields exactly the state of calling it once: the second call is a
no-op because the node is already marked loaded. -/
theorem C7_load_children_idempotent (world : Bool × FsT) (s : FileSearch) (p : Path) :
    (s.load_children world p).load_children world p = s.load_children world p := by
  cases hl : lookupNode s.tree_nodes p with
  | none =>
    have h1 : s.load_children world p = s.reload_children world p := by
      simp [FileSearch.load_children, hl]
    rw [h1]
    exact load_children_of_loaded world _ p _ (reload_children_lookup world s p) rfl
  | some nd =>
    cases hcl : nd.children_loaded with
    | true =>
      have h1 : s.load_children world p = s := load_children_of_loaded world s p nd hl hcl
      rw [h1]
      exact h1
    | false =>
      have h1 : s.load_children world p = s.reload_children world p := by
        simp [FileSearch.load_children, hl, hcl]
      rw [h1]
      exact load_children_of_loaded world _ p _ (reload_children_lookup world s p) rfl

/-- Helper: `update_query` never touches the file list or the indexing
flag. -/
theorem update_query_files_indexing (matcher : String → String → Option Nat)
    (s : FileSearch) (q : String) :
    (s.update_query matcher q).files = s.files ∧
    (s.update_query matcher q).indexing = s.indexing := by
  unfold FileSearch.update_query
  by_cases hq : q = "" <;> simp [hq]

/-- C3: with a nonempty query `update_query` activates search and sets
the match list to exactly the indices the matcher scores, ordered
non-increasing by score; with the empty query it deactivates search and
lists every file in original order with score 0. -/
theorem C3_update_query (matcher : String → String → Option Nat)
    (s : FileSearch) (q : String) :
    (q ≠ "" →
      (s.update_query matcher q).search_active = true ∧
      List.Sorted scoreGe (s.update_query matcher q).match_list ∧
      ∀ i sc, ((i, sc) ∈ (s.update_query matcher q).match_list ↔
        ∃ p, s.files.get? i = some p ∧ matcher (pathString p) q = some sc)) ∧
    (q = "" →
      (s.update_query matcher q).search_active = false ∧
      (s.update_query matcher q).match_list = enumZero s.files) := by
  constructor
  · intro hq
    refine ⟨?_, ?_, ?_⟩
    · simp [FileSearch.update_query, hq]
    · simp only [FileSearch.update_query, if_neg hq]
      exact List.sorted_insertionSort scoreGe _
    · intro i sc
      simp only [FileSearch.update_query, if_neg hq]
      constructor
      · intro hmem
        have h2 := (List.mem_insertionSort scoreGe).1 hmem
        rcases List.mem_filterMap.1 h2 with ⟨ip, hip, hf⟩
        rcases Option.map_eq_some'.1 hf with ⟨sc2, hm, heq⟩
        have hi : ip.1 = i := congrArg Prod.fst heq
        have hs : sc2 = sc := congrArg Prod.snd heq
        subst hs
        refine ⟨ip.2, ?_, hm⟩
        rw [← hi]
        have := List.mk_mem_enum_iff_getElem?.1 (by simpa using hip)
        simpa [List.get?_eq_getElem?] using this
      · rintro ⟨p, hget, hm⟩
        apply (List.mem_insertionSort scoreGe).2
        apply List.mem_filterMap.2
        refine ⟨(i, p), ?_, ?_⟩
        · exact List.mk_mem_enum_iff_getElem?.2
            (by simpa [List.get?_eq_getElem?] using hget)
        · simp [hm]
  · intro hq
    subst hq
    constructor
    · simp [FileSearch.update_query]
    · simp [FileSearch.update_query]

/-- C3 witness: on three files with concrete scores 1, none and 5 the
query produces the score-sorted pairs `[(2, 5), (0, 1)]`. -/
theorem C3_witness :
    (("z" : String) ≠ "") ∧
    ((witSearch.update_query witMatcher "z").search_active = true ∧
      List.Sorted scoreGe (witSearch.update_query witMatcher "z").match_list ∧
      ∀ i sc, ((i, sc) ∈ (witSearch.update_query witMatcher "z").match_list ↔
        ∃ p, witSearch.files.get? i = some p ∧
          witMatcher (pathString p) "z" = some sc)) :=
  ⟨by decide, (C3_update_query witMatcher witSearch "z").1 (by decide)⟩

/-- C9: `check_indexing` on a still-held receiver replaces the file list
and clears the indexing flag on success, clears the flag and surfaces the
error text on failure, sets the distinct disconnect message on producer
disconnect, drops the receiver in every terminal case, and is a no-op
once the receiver is gone. -/
theorem C9_check_indexing (matcher : String → String → Option Nat)
    (a : App) (recv : RecvOutcome) :
    (a.index_rx = false → a.check_indexing matcher recv = (a, false)) ∧
    (a.index_rx = true →
      (∀ files, recv = RecvOutcome.okFiles files →
        (a.check_indexing matcher recv).1.search.files = files ∧
        (a.check_indexing matcher recv).1.search.indexing = false ∧
        (a.check_indexing matcher recv).1.index_rx = false) ∧
      (∀ e, recv = RecvOutcome.errMsg e →
        (a.check_indexing matcher recv).1.search.indexing = false ∧
        (a.check_indexing matcher recv).1.status_message
          = some ("Indexing failed: " ++ e) ∧
        (a.check_indexing matcher recv).1.index_rx = false) ∧
      (recv = RecvOutcome.empty → a.check_indexing matcher recv = (a, false)) ∧
      (recv = RecvOutcome.disconnected →
        (a.check_indexing matcher recv).1.search.indexing = false ∧
        (a.check_indexing matcher recv).1.status_message
          = some "Indexing failed: worker disconnected" ∧
        (a.check_indexing matcher recv).1.index_rx = false)) := by
  constructor
  · intro h
    simp [App.check_indexing, h]
  · intro hrx
    refine ⟨?_, ?_, ?_, ?_⟩
    · rintro files rfl
      have hu := update_query_files_indexing matcher (a.search.apply_index files)
        a.search_input
      simp only [FileSearch.apply_index] at hu
      refine ⟨?_, ?_, ?_⟩
      · simp [App.check_indexing, hrx, FileSearch.apply_index, hu.1]
      · simp [App.check_indexing, hrx, FileSearch.apply_index, hu.2]
      · simp [App.check_indexing, hrx]
    · rintro e rfl
      simp [App.check_indexing, hrx]
    · rintro rfl
      simp [App.check_indexing, hrx]
    · rintro rfl
      simp [App.check_indexing, hrx]

/-- C9 witness: on a concrete app holding the receiver, a disconnect poll
clears the flag, sets the distinct message and drops the receiver. -/
theorem C9_witness :
    ({ witApp with index_rx := true } : App).index_rx = true ∧
    (({ witApp with index_rx := true } : App).check_indexing witMatcher
        RecvOutcome.disconnected).1.search.indexing = false ∧
    (({ witApp with index_rx := true } : App).check_indexing witMatcher
        RecvOutcome.disconnected).1.status_message
      = some "Indexing failed: worker disconnected" ∧
    (({ witApp with index_rx := true } : App).check_indexing witMatcher
        RecvOutcome.disconnected).1.index_rx = false :=
  ⟨rfl, ((C9_check_indexing witMatcher { witApp with index_rx := true }
    RecvOutcome.disconnected).2 rfl).2.2.2 rfl⟩

/-- Helper: a successful lookup is a member of the association list. -/
theorem lookupNode_mem (ns : List (Path × TreeNode)) (p : Path) (nd : TreeNode)
    (h : lookupNode ns p = some nd) : (p, nd) ∈ ns := by
  induction ns with
  | nil => simp [lookupNode] at h
  | cons e rest ih =>
    simp only [lookupNode] at h
    by_cases he : e.1 = p
    · rw [if_pos he] at h
      have hnd := Option.some.inj h
      have hpe : (p, nd) = e := by rw [← he, ← hnd]
      rw [hpe]
      exact List.mem_cons_self e rest
    · rw [if_neg he] at h
      exact List.mem_cons_of_mem e (ih h)

/-- Helper: a proper ancestor of `p ++ [n]` is `p` itself or a proper
ancestor of `p`. -/
theorem properAncestor_snoc {q p : Path} {n : String}
    (h : properAncestor q (p ++ [n])) : q = p ∨ properAncestor q p := by
  rcases h with ⟨hne, r, hqr⟩
  have hlen : q.length + r.length = p.length + 1 := by
    simpa using congrArg List.length hqr
  rcases Nat.lt_or_ge p.length q.length with hgt | hle
  · have hr : r = [] := List.eq_nil_of_length_eq_zero (by omega)
    subst hr
    simp only [List.append_nil] at hqr
    exact absurd hqr hne
  · have htake : q = (p ++ [n]).take q.length := by
      rw [← hqr, List.take_left]
    rw [List.take_append_of_le_length hle] at htake
    rcases Nat.eq_or_lt_of_le hle with heq | hlt
    · left
      rw [htake, heq, List.take_length]
    · right
      refine ⟨?_, p.drop q.length, ?_⟩
      · intro hqp
        rw [hqp] at hlt
        exact Nat.lt_irrefl _ hlt
      · rw [htake, List.length_take, Nat.min_eq_left (Nat.le_of_lt hlt)]
        exact List.take_append_drop _ _

/-- Helper: nothing is a proper ancestor of the root. -/
theorem properAncestor_nil {q : Path} (h : properAncestor q []) : False := by
  rcases h with ⟨hne, r, hqr⟩
  rcases List.append_eq_nil.1 hqr with ⟨h1, -⟩
  exact hne h1

/-- Helper: every entry `walk_tree` emits from a start path whose proper
ancestors are all expanded again has all proper ancestors expanded. -/
theorem walk_tree_ancestors (s : FileSearch)
    (hwf : childrenWellFormed s.tree_nodes) :
    ∀ fuel p d, (∀ q, properAncestor q p → q ∈ s.expanded) →
      ∀ e ∈ s.walk_tree fuel p d, ∀ q, properAncestor q e.path → q ∈ s.expanded := by
  intro fuel
  induction fuel with
  | zero =>
    intro p d hp e he
    simp [FileSearch.walk_tree] at he
  | succ n ih =>
    intro p d hp e he
    simp only [FileSearch.walk_tree] at he
    cases hl : lookupNode s.tree_nodes p with
    | none =>
      rw [hl] at he
      simp at he
    | some node =>
      rw [hl] at he
      rcases List.mem_cons.1 he with rfl | he2
      · exact hp
      · by_cases hcond : (node.is_dir && s.expanded.contains p) = true
        · rw [if_pos hcond] at he2
          have hpexp : p ∈ s.expanded := by
            have := (Bool.and_eq_true .. ▸ hcond).2
            simpa using this
          rcases List.mem_flatMap.1 he2 with ⟨c, hc, hec⟩
          have hcwf := hwf (p, node) (lookupNode_mem s.tree_nodes p node hl) c hc
          have hdrop : c.dropLast = p := hcwf.2
          obtain ⟨c0, nm, hceq⟩ : ∃ c0 nm, c = c0 ++ [nm] :=
            ⟨c.dropLast, c.getLast hcwf.1, (List.dropLast_append_getLast hcwf.1).symm⟩
          have hc0 : c0 = p := by
            have h4 := hdrop
            rw [hceq] at h4
            simpa using h4
          subst hc0
          have hanc : ∀ q2, properAncestor q2 c → q2 ∈ s.expanded := by
            intro q2 hq2
            rw [hceq] at hq2
            rcases properAncestor_snoc hq2 with rfl | hq3
            · exact hpexp
            · exact hp q2 hq3
          exact ih c (d + 1) hanc e hec
        · rw [if_neg hcond] at he2
          simp at he2

/-- Helper: under the unloaded-nodes-have-no-children invariant, the
source traversal coincides with the spec traversal that additionally
requires `children_loaded` before descending. -/
theorem walk_tree_eq_loaded (s : FileSearch) (hun : unloadedEmpty s.tree_nodes) :
    ∀ fuel p d, s.walk_tree fuel p d = s.walk_tree_loaded fuel p d := by
  intro fuel
  induction fuel with
  | zero => intro p d; rfl
  | succ n ih =>
    intro p d
    simp only [FileSearch.walk_tree, FileSearch.walk_tree_loaded]
    cases hl : lookupNode s.tree_nodes p with
    | none => rfl
    | some node =>
      have hrec : (fun c => s.walk_tree n c (d + 1))
          = fun c => s.walk_tree_loaded n c (d + 1) := funext (fun c => ih c (d + 1))
      cases hcl : node.children_loaded with
      | true =>
        simp [hcl, hrec]
      | false =>
        have hch : node.children = [] :=
          hun (p, node) (lookupNode_mem s.tree_nodes p node hl) hcl
        simp [hcl, hch]

/-- C4: every entry of the flattened visible sequence has every proper
ancestor of its path expanded (the empty root path included), and — under
the data-model invariant that unloaded nodes carry no children — the
source traversal that checks only expansion emits exactly what the
traversal that also requires `children_loaded` emits. -/
theorem C4_flatten_ancestors (s : FileSearch) (fuel : Nat)
    (hwf : childrenWellFormed s.tree_nodes)
    (hroot : ([] : Path) ∈ s.expanded)
    (hun : unloadedEmpty s.tree_nodes) :
    (∀ e ∈ (s.rebuild_tree_visible fuel).tree_visible,
      ∀ q, properAncestor q e.path → q ∈ s.expanded) ∧
    (∀ p d, s.walk_tree fuel p d = s.walk_tree_loaded fuel p d) := by
  constructor
  · intro e he q hq
    unfold FileSearch.rebuild_tree_visible at he
    cases hl : lookupNode s.tree_nodes [] with
    | none =>
      rw [hl] at he
      simp at he
    | some root_node =>
      rw [hl] at he
      simp only at he
      rcases List.mem_flatMap.1 he with ⟨c, hc, hec⟩
      have hcwf := hwf ([], root_node) (lookupNode_mem s.tree_nodes [] root_node hl) c hc
      have hdrop : c.dropLast = [] := hcwf.2
      obtain ⟨c0, nm, hceq⟩ : ∃ c0 nm, c = c0 ++ [nm] :=
        ⟨c.dropLast, c.getLast hcwf.1, (List.dropLast_append_getLast hcwf.1).symm⟩
      have hc0 : c0 = [] := by
        have h4 := hdrop
        rw [hceq] at h4
        simpa using h4
      subst hc0
      have hanc : ∀ q2, properAncestor q2 c → q2 ∈ s.expanded := by
        intro q2 hq2
        rw [hceq] at hq2
        rcases properAncestor_snoc hq2 with rfl | hq3
        · exact hroot
        · exact absurd hq3 properAncestor_nil
      exact walk_tree_ancestors s hwf fuel c 0 hanc e hec q hq
  · exact walk_tree_eq_loaded s hun fuel

/-- C4 witness: the concrete browse tree satisfies the invariants and the
conclusions hold there. -/
theorem C4_witness :
    childrenWellFormed witBrowse.tree_nodes ∧
    ([] : Path) ∈ witBrowse.expanded ∧
    unloadedEmpty witBrowse.tree_nodes ∧
    (∀ p d, witBrowse.walk_tree 3 p d = witBrowse.walk_tree_loaded 3 p d) :=
  ⟨by decide, by decide, by decide,
    (C4_flatten_ancestors witBrowse 3 (by decide) (by decide) (by decide)).2⟩

/-- Helper: before the debounce deadline, ticks only accumulate the
pending flag; the timer and the refresh counter stay untouched. -/
theorem schedRun_quiet (ts : List TickObs) :
    ∀ s : SchedState,
      (∀ t ∈ ts, t.now < s.last_root_refresh + refresh_interval) →
      schedRun s ts =
        { root_refresh_pending :=
            s.root_refresh_pending || ts.any (fun t => t.root_signal),
          last_root_refresh := s.last_root_refresh,
          refresh_count := s.refresh_count } := by
  induction ts with
  | nil =>
    intro s h
    simp [schedRun]
  | cons t rest ih =>
    intro s h
    have ht := h t (List.mem_cons_self t rest)
    have hri : refresh_interval = 300 := rfl
    have hcond : ¬ (refresh_interval ≤ t.now - s.last_root_refresh) := by omega
    have hstep : schedTick s t =
        { s with root_refresh_pending := s.root_refresh_pending || t.root_signal } := by
      simp [schedTick, hcond]
    have hrun : schedRun s (t :: rest) = schedRun (schedTick s t) rest := rfl
    rw [hrun, ih (schedTick s t) (by
      intro t2 ht2
      rw [hstep]
      exact h t2 (List.mem_cons_of_mem t ht2)), hstep]
    simp [Bool.or_assoc]

/-- Helper: with the pending flag down and no arriving signals, ticks
change nothing. -/
theorem schedRun_idle (ts : List TickObs) :
    ∀ s : SchedState, s.root_refresh_pending = false →
      (∀ t ∈ ts, t.root_signal = false) →
      schedRun s ts =
        { root_refresh_pending := false,
          last_root_refresh := s.last_root_refresh,
          refresh_count := s.refresh_count } := by
  induction ts with
  | nil =>
    intro s hp hs
    rw [← hp]
    rfl
  | cons t rest ih =>
    intro s hp hs
    have ht := hs t (List.mem_cons_self t rest)
    have hstep : schedTick s t =
        { root_refresh_pending := false,
          last_root_refresh := s.last_root_refresh,
          refresh_count := s.refresh_count } := by
      simp [schedTick, hp, ht]
    have hrun : schedRun s (t :: rest) = schedRun (schedTick s t) rest := rfl
    rw [hrun, hstep,
      ih _ rfl (fun t2 ht2 => hs t2 (List.mem_cons_of_mem t ht2))]

/-- C8: a batch of one or more root-watcher signals all arriving before
the debounce deadline triggers exactly one `refresh_search` call once the
deadline has passed; and a single tick refreshes exactly when a change is
pending, indexing is off and the interval has elapsed, then clearing the
pending flag and resetting the timer. -/
theorem C8_debounce_single_refresh (s0 : SchedState) (ts1 ts2 : List TickObs)
    (hstart : s0.root_refresh_pending = false)
    (hwin : ∀ t ∈ ts1, t.now < s0.last_root_refresh + refresh_interval)
    (hsig : ts1.any (fun t => t.root_signal) = true)
    (hq2 : ∀ t ∈ ts2, t.root_signal = false)
    (hn2 : ∀ t ∈ ts2, s0.last_root_refresh + refresh_interval ≤ t.now)
    (hidx2 : ∀ t ∈ ts2, t.indexing = false)
    (hts2 : ts2 ≠ []) :
    (schedRun s0 (ts1 ++ ts2)).refresh_count = s0.refresh_count + 1 ∧
    (∀ s t, ((schedTick s t).refresh_count = s.refresh_count + 1 ↔
        (s.root_refresh_pending || t.root_signal) = true ∧ t.indexing = false ∧
          refresh_interval ≤ t.now - s.last_root_refresh) ∧
      ((schedTick s t).refresh_count = s.refresh_count + 1 →
        (schedTick s t).root_refresh_pending = false ∧
        (schedTick s t).last_root_refresh = t.now)) := by
  constructor
  · have hsplit : schedRun s0 (ts1 ++ ts2) = schedRun (schedRun s0 ts1) ts2 := by
      simp [schedRun, List.foldl_append]
    rw [hsplit, schedRun_quiet ts1 s0 hwin, hstart, hsig]
    cases ts2 with
    | nil => exact absurd rfl hts2
    | cons t rest =>
      have hel : refresh_interval ≤ t.now - s0.last_root_refresh := by
        have h5 := hn2 t (List.mem_cons_self t rest)
        omega
      have hidxt := hidx2 t (List.mem_cons_self t rest)
      have hfirst : schedTick
          { root_refresh_pending := false || true,
            last_root_refresh := s0.last_root_refresh,
            refresh_count := s0.refresh_count } t =
          { root_refresh_pending := false,
            last_root_refresh := t.now,
            refresh_count := s0.refresh_count + 1 } := by
        simp [schedTick, hidxt, hel]
      have hrun : schedRun
          { root_refresh_pending := false || true,
            last_root_refresh := s0.last_root_refresh,
            refresh_count := s0.refresh_count } (t :: rest) =
          schedRun (schedTick
            { root_refresh_pending := false || true,
              last_root_refresh := s0.last_root_refresh,
              refresh_count := s0.refresh_count } t) rest := rfl
      rw [hrun, hfirst,
        schedRun_idle rest _ rfl (fun t2 ht2 => hq2 t2 (List.mem_cons_of_mem t ht2))]
  · intro s t
    cases hsg : s.root_refresh_pending || t.root_signal with
    | false =>
      have hst : schedTick s t =
          { s with root_refresh_pending := s.root_refresh_pending || t.root_signal } := by
        simp [schedTick, hsg]
      rw [hst]
      constructor
      · constructor
        · intro h
          exact absurd h (by simp)
        · rintro ⟨h1, -⟩
          exact absurd h1 (by simp)
      · intro h
        exact absurd h (by simp)
    | true =>
      cases hix : t.indexing with
      | true =>
        have hst : schedTick s t =
            { s with root_refresh_pending := s.root_refresh_pending || t.root_signal } := by
          simp [schedTick, hix]
        rw [hst]
        constructor
        · constructor
          · intro h
            exact absurd h (by simp)
          · rintro ⟨-, h2, -⟩
            exact absurd h2 (by simp)
        · intro h
          exact absurd h (by simp)
      | false =>
        by_cases hel : refresh_interval ≤ t.now - s.last_root_refresh
        · have hst : schedTick s t =
              { root_refresh_pending := false,
                last_root_refresh := t.now,
                refresh_count := s.refresh_count + 1 } := by
            simp [schedTick, hsg, hix, hel]
          rw [hst]
          exact ⟨⟨fun _ => ⟨rfl, rfl, hel⟩, fun _ => rfl⟩, fun _ => ⟨rfl, rfl⟩⟩
        · have hst : schedTick s t =
              { s with root_refresh_pending := s.root_refresh_pending || t.root_signal } := by
            simp [schedTick, hel]
          rw [hst]
          constructor
          · constructor
            · intro h
              exact absurd h (by simp)
            · rintro ⟨-, -, h3⟩
              exact absurd h3 hel
          · intro h
            exact absurd h (by simp)

/-- C8 witness: two signals inside one 300 ms window followed by two
later quiet ticks produce exactly one refresh. -/
theorem C8_witness :
    (schedRun ⟨false, 0, 0⟩
      ([⟨100, true, false⟩, ⟨200, true, false⟩] ++
       [⟨300, false, false⟩, ⟨400, false, false⟩])).refresh_count = 0 + 1 :=
  (C8_debounce_single_refresh ⟨false, 0, 0⟩
    [⟨100, true, false⟩, ⟨200, true, false⟩]
    [⟨300, false, false⟩, ⟨400, false, false⟩]
    rfl (by decide) (by decide) (by decide) (by decide) (by decide) (by decide)).1

end Teditor

